import Mathlib

/-!
Verification of the StudyChain blockchain engine (`src/app.py` and
`src/blockchain_utils.py`).

The engine hashes each study-session block with `hashlib.sha256` over a
delimiter-free concatenation of stringified fields, mines a nonce so the hex
digest has `DIFFICULTY` leading zero characters (giving up after `MAX_NONCE`
attempts), and verifies a per-user chain by recomputing each digest, checking
linkage to the previous block's stored digest, and checking difficulty
compliance.

The SHA-256 hex digest itself is an external library primitive; it is modelled
throughout as an abstract function parameter `H : String → String` applied to
the serialized block material.  Everything the repository itself computes
(serialization, the mining loop, both verifiers, the append path, the delete
handler) is embedded concretely.
-/

/-- One row of the `StudySession` model (`src/app.py`, lines 45-60), restricted
to the fields that take part in hashing and verification.  `date` and
`timestamp` are kept in the canonical serialized forms the code hashes and
compares (`YYYY-MM-DD` and `YYYY-MM-DD HH:MM:SS`). -/
structure Block where
  block_number : Nat
  timestamp : String
  date : String
  subject : String
  duration : Nat
  status : String
  hash : String
  prev_hash : String
  nonce : Nat
  difficulty : Nat
  deriving DecidableEq, Inhabited

/-- Python `'0' * n`: the string of `n` zero characters (used for the mining
target, the difficulty check and the 64-character genesis sentinel). -/
def zeros (n : Nat) : String :=
  String.mk (List.replicate n '0')

/-- Whether the first list is an initial segment of the second, on characters;
the computational core of Python `str.startswith`. -/
def leadsWith : List Char → List Char → Bool
  | [], _ => true
  | _ :: _, [] => false
  | a :: as, b :: bs => a == b && leadsWith as bs

/-- Python `s.startswith(pre)`. -/
def strStartsWith (s pre : String) : Bool :=
  leadsWith pre.data s.data

/-- The payload serialization `f"{date}{subject}{duration}{status}"`, written
identically in `app.dashboard` (line 278), `app.verify_chain` (line 109) and
`blockchain_utils.verify_user_chain` (line 46). -/
def blockData (b : Block) : String :=
  b.date ++ b.subject ++ toString b.duration ++ b.status

/-- The linkage test of both verifiers: `session.prev_hash != sessions[i-1].hash`,
guarded by `i > 0`; `prev` is `none` exactly at the head of the list. -/
def linkBroken (prev : Option Block) (b : Block) : Bool :=
  match prev with
  | some p => b.prev_hash != p.hash
  | none => false

namespace App

/-- `DIFFICULTY = 3` (`src/app.py`, line 30). -/
def DIFFICULTY : Nat := 3

/-- `MAX_NONCE = 1000000` (`src/app.py`, line 31). -/
def MAX_NONCE : Nat := 1000000

/-- `calculate_hash` (`src/app.py`, lines 81-84): the digest of
`f"{block_number}{timestamp}{prev_hash}{data}{nonce}{difficulty}"`. -/
def calculate_hash (H : String → String) (block_number : Nat)
    (timestamp prev_hash data : String) (nonce difficulty : Nat) : String :=
  H (toString block_number ++ timestamp ++ prev_hash ++ data
      ++ toString nonce ++ toString difficulty)

/-- The `while nonce < MAX_NONCE` loop of `mine_block` (`src/app.py`,
lines 91-95), with `fuel` counting the remaining iterations; when the fuel runs
out the loop has exited with `nonce = MAX_NONCE` and line 98 returns a freshly
computed hash at that nonce. -/
def mineLoop (H : String → String) (block_number : Nat)
    (timestamp prev_hash data : String) (difficulty : Nat) :
    Nat → Nat → String × Nat
  | nonce, 0 =>
    (calculate_hash H block_number timestamp prev_hash data nonce difficulty, nonce)
  | nonce, fuel + 1 =>
    let hash_result :=
      calculate_hash H block_number timestamp prev_hash data nonce difficulty
    if strStartsWith hash_result (zeros difficulty) then (hash_result, nonce)
    else mineLoop H block_number timestamp prev_hash data difficulty (nonce + 1) fuel

/-- `mine_block` (`src/app.py`, lines 86-98). -/
def mine_block (H : String → String) (block_number : Nat)
    (timestamp prev_hash data : String) (difficulty : Nat) : String × Nat :=
  mineLoop H block_number timestamp prev_hash data difficulty 0 MAX_NONCE

/-- The loop body of `verify_chain` (`src/app.py`, lines 107-129), with the
three checks in source order: recomputed hash, chain linkage, difficulty.
`some msg` is the fail-fast error, `none` means the block passes. -/
def checkBlock (H : String → String) (prev : Option Block) (b : Block) :
    Option String :=
  if calculate_hash H b.block_number b.timestamp b.prev_hash (blockData b)
      b.nonce b.difficulty ≠ b.hash then
    some ("Block " ++ toString b.block_number ++ " has invalid hash")
  else if linkBroken prev b then
    some ("Block " ++ toString b.block_number ++ " has broken chain link")
  else if strStartsWith b.hash (zeros b.difficulty) = false then
    some ("Block " ++ toString b.block_number
      ++ " doesn\x27t meet difficulty requirement")
  else
    none

/-- The fail-fast scan of `verify_chain` over the ordered block list, threading
the previous block for the linkage check. -/
def verifyFrom (H : String → String) (prev : Option Block) :
    List Block → Bool × String
  | [] => (true, "Blockchain is valid")
  | b :: rest =>
    match checkBlock H prev b with
    | some msg => (false, msg)
    | none => verifyFrom H (some b) rest

/-- `verify_chain` (`src/app.py`, lines 100-131), applied to the blocks of one
user in `block_number` order. -/
def verify_chain (H : String → String) (blocks : List Block) : Bool × String :=
  match blocks with
  | [] => (true, "No blocks to verify")
  | _ :: _ => verifyFrom H none blocks

/-- The study-session form input of the dashboard append path, after the web
layer has validated and normalized it (duration already in minutes, `date` and
`timestamp` in their serialized forms). -/
structure Input where
  date : String
  subject : String
  duration : Nat
  status : String
  timestamp : String
  deriving DecidableEq, Inhabited

/-- The dashboard append path (`src/app.py`, lines 270-305): read the chain
tail (the highest `block_number` row), build the payload, mine with the
process-wide `DIFFICULTY`, and persist the new block with the returned hash
and nonce. -/
def append (H : String → String) (chain : List Block) (inp : Input) :
    List Block :=
  let prev_hash := match chain.getLast? with | some p => p.hash | none => zeros 64
  let block_number := match chain.getLast? with | some p => p.block_number + 1 | none => 1
  let data := inp.date ++ inp.subject ++ toString inp.duration ++ inp.status
  let mined := mine_block H block_number inp.timestamp prev_hash data DIFFICULTY
  chain ++ [{ block_number := block_number, timestamp := inp.timestamp,
              date := inp.date, subject := inp.subject, duration := inp.duration,
              status := inp.status, hash := mined.1, prev_hash := prev_hash,
              nonce := mined.2, difficulty := DIFFICULTY }]

/-- Sequential appends for one user, oldest first. -/
def appendAll (H : String → String) (chain : List Block) (inputs : List Input) :
    List Block :=
  inputs.foldl (fun c inp => append H c inp) chain

/-- The persistent per-user block store, `user_id → ordered chain`. -/
structure Store where
  chains : Nat → List Block

/-- The flash message of `delete_session` (`src/app.py`, line 429). -/
def deleteWarning : String :=
  "Warning: Deleting blocks from a blockchain breaks the chain integrity!"

/-- `delete_session` (`src/app.py`, lines 424-430): when not logged in it
redirects silently, otherwise it only flashes a warning; neither branch touches
any stored block. -/
def delete_session (loggedIn : Bool) (store : Store) (_sid : Nat) :
    Store × Option String :=
  if loggedIn then (store, some deleteWarning) else (store, none)

end App

namespace Utils

/-- `calculate_hash` (`src/blockchain_utils.py`, lines 28-31), textually
identical to `App.calculate_hash`. -/
def calculate_hash (H : String → String) (block_number : Nat)
    (timestamp prev_hash data : String) (nonce difficulty : Nat) : String :=
  H (toString block_number ++ timestamp ++ prev_hash ++ data
      ++ toString nonce ++ toString difficulty)

/-- The loop body of `verify_user_chain` (`src/blockchain_utils.py`,
lines 44-66): all three checks run unconditionally and each failure appends one
error string. -/
def blockErrors (H : String → String) (prev : Option Block) (b : Block) :
    List String :=
  (if calculate_hash H b.block_number b.timestamp b.prev_hash (blockData b)
      b.nonce b.difficulty ≠ b.hash then
    ["Block " ++ toString b.block_number ++ ": Invalid hash"] else [])
  ++ (if linkBroken prev b then
    ["Block " ++ toString b.block_number ++ ": Broken chain link"] else [])
  ++ (if strStartsWith b.hash (zeros b.difficulty) = false then
    ["Block " ++ toString b.block_number
      ++ ": Doesn\x27t meet difficulty requirement"] else [])

/-- The error-accumulating scan of `verify_user_chain`. -/
def errorsFrom (H : String → String) (prev : Option Block) :
    List Block → List String
  | [] => []
  | b :: rest => blockErrors H prev b ++ errorsFrom H (some b) rest

/-- `verify_user_chain` (`src/blockchain_utils.py`, lines 33-70). -/
def verify_user_chain (H : String → String) (blocks : List Block) :
    Bool × String × List String :=
  match blocks with
  | [] => (true, "No blocks to verify", [])
  | _ :: _ =>
    let errors := errorsFrom H none blocks
    if errors ≠ [] then
      (false, "Found " ++ toString errors.length ++ " error(s)", errors)
    else (true, "Blockchain is valid", [])

end Utils

/-- Mutation of exactly one payload field (`date`, `subject`, `duration` or
`status`) of a committed block, leaving every other stored field — in
particular `hash`, `nonce`, `prev_hash`, `timestamp` — untouched. -/
def PayloadTamper (b b' : Block) : Prop :=
  b'.block_number = b.block_number ∧ b'.timestamp = b.timestamp
    ∧ b'.prev_hash = b.prev_hash ∧ b'.hash = b.hash
    ∧ b'.nonce = b.nonce ∧ b'.difficulty = b.difficulty
    ∧ ((b'.date ≠ b.date ∧ b'.subject = b.subject
          ∧ b'.duration = b.duration ∧ b'.status = b.status)
      ∨ (b'.date = b.date ∧ b'.subject ≠ b.subject
          ∧ b'.duration = b.duration ∧ b'.status = b.status)
      ∨ (b'.date = b.date ∧ b'.subject = b.subject
          ∧ b'.duration ≠ b.duration ∧ b'.status = b.status)
      ∨ (b'.date = b.date ∧ b'.subject = b.subject
          ∧ b'.duration = b.duration ∧ b'.status ≠ b.status))

instance (b b' : Block) : Decidable (PayloadTamper b b') := by
  unfold PayloadTamper
  infer_instance

/-- The block that plays the role of "previous block" after a list `xs` has
been scanned: the last element of `xs`, or the incoming `prev` when `xs` is
empty. -/
def lastOr (xs : List Block) (prev : Option Block) : Option Block :=
  match xs.getLast? with
  | some b => some b
  | none => prev

/-- A constant digest function; instantiating the abstract SHA-256 parameter
with it makes every mining attempt miss a positive difficulty target, so the
ceiling-exhaustion branch of `mine_block` (line 97-98) becomes reachable. -/
def constHash : String → String :=
  fun _ => "1"

/-- A constant digest function whose output meets any difficulty up to 64, so
mining always succeeds at nonce 0. -/
def zHash : String → String :=
  fun _ => zeros 64

/-- A concrete dashboard input. -/
def inp0 : App.Input :=
  { date := "2024-01-01", subject := "Math", duration := 60,
    status := "pending", timestamp := "2024-01-01 08:00:00" }

/-- A second concrete dashboard input. -/
def inp1 : App.Input :=
  { date := "2024-01-02", subject := "Physics", duration := 90,
    status := "pending", timestamp := "2024-01-02 08:00:00" }

/-- A concrete difficulty-0 block that is self-consistent under the identity
digest: its stored hash equals the serialization of its own fields. -/
def wB : Block :=
  { block_number := 1, timestamp := "", date := "d", subject := "s",
    duration := 5, status := "p", hash := "1qds5p00", prev_hash := "q",
    nonce := 0, difficulty := 0 }

/-- `wB` with its `status` payload field mutated and nothing re-mined. -/
def wBx : Block :=
  { wB with status := "x" }

/-- Genesis block of a concrete two-block chain valid under the identity
digest at difficulty 0. -/
def cA : Block :=
  { block_number := 1, timestamp := "", date := "", subject := "",
    duration := 0, status := "", hash := "1000", prev_hash := "",
    nonce := 0, difficulty := 0 }

/-- Second block of the concrete chain, correctly linked to `cA`. -/
def cB : Block :=
  { block_number := 2, timestamp := "", date := "", subject := "",
    duration := 0, status := "", hash := "21000000", prev_hash := "1000",
    nonce := 0, difficulty := 0 }

/-- Specification predicate: the sequencing invariant of claim C7 — block
numbers are `1 .. length` in order, the first block points at the 64-character
all-zero sentinel, and every later block points at its predecessor's stored
hash. -/
def Chained (c : List Block) : Prop :=
  (∀ i, i < c.length → (c.getD i default).block_number = i + 1)
    ∧ (∀ i, i < c.length → (c.getD i default).prev_hash
        = if i = 0 then zeros 64 else (c.getD (i - 1) default).hash)

/-! ## General-purpose lemmas -/

theorem str_ext {s t : String} (h : s.data = t.data) : s = t := by
  cases s
  cases t
  exact congrArg String.mk h

theorem str_append_cancel_right {a b c : String} (h : a ++ c = b ++ c) :
    a = b := by
  apply str_ext
  have h2 : a.data ++ c.data = b.data ++ c.data := by
    rw [← String.data_append, ← String.data_append, h]
  exact List.append_cancel_right h2

theorem str_append_cancel_left {a b c : String} (h : a ++ b = a ++ c) :
    b = c := by
  apply str_ext
  have h2 : a.data ++ b.data = a.data ++ c.data := by
    rw [← String.data_append, ← String.data_append, h]
  exact List.append_cancel_left h2

/-! ## Injectivity of the decimal serialization of naturals

Python serializes the integer fields with `str(...)`; the embedding uses
`toString = Nat.repr`.  The tamper claims need that distinct numbers
serialize to distinct strings, which we derive by relating the fueled core
printer `Nat.toDigitsCore` to `Nat.digits`. -/

theorem digitChar_inj_lt :
    ∀ a, a < 10 → ∀ b, b < 10 → Nat.digitChar a = Nat.digitChar b → a = b := by
  decide

theorem toDigitsCore_succ (fuel n : Nat) (ds : List Char) :
    Nat.toDigitsCore 10 (fuel + 1) n ds
      = if n / 10 = 0 then Nat.digitChar (n % 10) :: ds
        else Nat.toDigitsCore 10 fuel (n / 10) (Nat.digitChar (n % 10) :: ds) :=
  rfl

theorem toDigitsCore_eq_digits :
    ∀ (fuel n : Nat) (ds : List Char), 0 < n → n < 10 ^ fuel →
      Nat.toDigitsCore 10 fuel n ds
        = ((Nat.digits 10 n).reverse.map Nat.digitChar) ++ ds := by
  intro fuel
  induction fuel with
  | zero =>
    intro n ds hn hlt
    omega
  | succ fuel ih =>
    intro n ds hn hlt
    rw [toDigitsCore_succ]
    by_cases h0 : n / 10 = 0
    · rw [if_pos h0]
      rw [Nat.digits_def' (by norm_num) hn, h0]
      simp
    · rw [if_neg h0]
      have hdiv : n / 10 < 10 ^ fuel := by
        have h10 : 10 ^ (fuel + 1) = 10 ^ fuel * 10 := by ring
        omega
      rw [ih (n / 10) (Nat.digitChar (n % 10) :: ds) (by omega) hdiv]
      rw [Nat.digits_def' (by norm_num) hn]
      simp

theorem repr_data_eq (n : Nat) (hn : 0 < n) :
    (Nat.repr n).data = (Nat.digits 10 n).reverse.map Nat.digitChar := by
  have hlt : n < 10 ^ (n + 1) := by
    calc n < 2 ^ n := Nat.lt_two_pow n
    _ ≤ 10 ^ n := Nat.pow_le_pow_left (by norm_num) n
    _ ≤ 10 ^ (n + 1) := Nat.pow_le_pow_right (by norm_num) (by omega)
  have : (Nat.repr n).data = Nat.toDigitsCore 10 (n + 1) n [] := rfl
  rw [this, toDigitsCore_eq_digits (n + 1) n [] hn hlt]
  simp

theorem map_digitChar_inj :
    ∀ (l1 l2 : List Nat), (∀ x ∈ l1, x < 10) → (∀ x ∈ l2, x < 10) →
      l1.map Nat.digitChar = l2.map Nat.digitChar → l1 = l2 := by
  intro l1
  induction l1 with
  | nil =>
    intro l2 _ _ h
    cases l2 with
    | nil => rfl
    | cons y ys => simp at h
  | cons x xs ih =>
    intro l2 h1 h2 h
    cases l2 with
    | nil => simp at h
    | cons y ys =>
      simp only [List.map_cons, List.cons.injEq] at h
      have hx : x = y :=
        digitChar_inj_lt x (h1 x (by simp)) y (h2 y (by simp)) h.1
      have hxs : xs = ys :=
        ih ys (fun z hz => h1 z (by simp [hz])) (fun z hz => h2 z (by simp [hz])) h.2
      rw [hx, hxs]

theorem repr_zero_ne {b : Nat} (hb : b ≠ 0) : Nat.repr 0 ≠ Nat.repr b := by
  intro h
  have hd : (['0'] : List Char) = (Nat.digits 10 b).reverse.map Nat.digitChar := by
    have h0 : (Nat.repr 0).data = ['0'] := rfl
    rw [← h0, h, repr_data_eq b (by omega)]
  have hlen : (Nat.digits 10 b).length = 1 := by
    have := congrArg List.length hd
    simpa using this.symm
  obtain ⟨d, hdig⟩ : ∃ d, Nat.digits 10 b = [d] := by
    cases hh : Nat.digits 10 b with
    | nil => rw [hh] at hlen; simp at hlen
    | cons d tl =>
      cases htl : tl with
      | nil => exact ⟨d, rfl⟩
      | cons e tl2 =>
        rw [htl] at hh
        rw [hh] at hlen
        simp at hlen
  have hd0 : d = 0 := by
    rw [hdig] at hd
    simp at hd
    have hdlt : d < 10 :=
      Nat.digits_lt_base (by norm_num) (by rw [hdig]; simp)
    exact (digitChar_inj_lt 0 (by norm_num) d hdlt hd).symm
  have : b = 0 := by
    have := Nat.ofDigits_digits 10 b
    rw [hdig, hd0] at this
    simpa using this.symm
  exact hb this

theorem natRepr_inj {a b : Nat} (h : Nat.repr a = Nat.repr b) : a = b := by
  by_cases ha : a = 0
  · by_cases hb : b = 0
    · omega
    · exact absurd (ha ▸ h) (repr_zero_ne hb)
  · by_cases hb : b = 0
    · exact absurd (hb ▸ h.symm) (repr_zero_ne ha)
    · have hda := repr_data_eq a (by omega)
      have hdb := repr_data_eq b (by omega)
      have hdata : (Nat.repr a).data = (Nat.repr b).data := by rw [h]
      rw [hda, hdb] at hdata
      have hrev : (Nat.digits 10 a).reverse = (Nat.digits 10 b).reverse :=
        map_digitChar_inj _ _
          (fun x hx => Nat.digits_lt_base (by norm_num) (by simpa using hx))
          (fun x hx => Nat.digits_lt_base (by norm_num) (by simpa using hx))
          hdata
      have hdig : Nat.digits 10 a = Nat.digits 10 b := by
        have := congrArg List.reverse hrev
        simpa using this
      calc a = Nat.ofDigits 10 (Nat.digits 10 a) := (Nat.ofDigits_digits 10 a).symm
      _ = Nat.ofDigits 10 (Nat.digits 10 b) := by rw [hdig]
      _ = b := Nat.ofDigits_digits 10 b

theorem toString_nat_inj {a b : Nat} (h : toString a = toString b) : a = b :=
  natRepr_inj h

/-! ## Mining-loop lemmas -/

theorem mineLoop_zero (H : String → String) (bn : Nat) (ts ph data : String)
    (d nonce : Nat) :
    App.mineLoop H bn ts ph data d nonce 0
      = (App.calculate_hash H bn ts ph data nonce d, nonce) :=
  rfl

theorem mineLoop_succ (H : String → String) (bn : Nat) (ts ph data : String)
    (d nonce fuel : Nat) :
    App.mineLoop H bn ts ph data d nonce (fuel + 1)
      = if strStartsWith (App.calculate_hash H bn ts ph data nonce d) (zeros d) then
          (App.calculate_hash H bn ts ph data nonce d, nonce)
        else App.mineLoop H bn ts ph data d (nonce + 1) fuel :=
  rfl

/-- Whatever happens inside the loop, the result is the hash/nonce pair of a
single `calculate_hash` call, the nonce stays within the fuel budget, and the
hash is either difficulty-compliant or the budget was fully consumed. -/
theorem mineLoop_spec (H : String → String) (bn : Nat) (ts ph data : String)
    (d : Nat) :
    ∀ (fuel nonce : Nat),
      (App.mineLoop H bn ts ph data d nonce fuel).1
          = App.calculate_hash H bn ts ph data
              (App.mineLoop H bn ts ph data d nonce fuel).2 d
        ∧ (App.mineLoop H bn ts ph data d nonce fuel).2 ≤ nonce + fuel
        ∧ (strStartsWith (App.mineLoop H bn ts ph data d nonce fuel).1 (zeros d) = true
            ∨ (App.mineLoop H bn ts ph data d nonce fuel).2 = nonce + fuel) := by
  intro fuel
  induction fuel with
  | zero =>
    intro nonce
    rw [mineLoop_zero]
    exact ⟨rfl, Nat.le_refl _, Or.inr rfl⟩
  | succ fuel ih =>
    intro nonce
    rw [mineLoop_succ]
    by_cases h : strStartsWith (App.calculate_hash H bn ts ph data nonce d) (zeros d) = true
    · rw [if_pos h]
      exact ⟨rfl, by omega, Or.inl h⟩
    · rw [if_neg h]
      obtain ⟨h1, h2, h3⟩ := ih (nonce + 1)
      refine ⟨h1, by omega, ?_⟩
      cases h3 with
      | inl hc => exact Or.inl hc
      | inr he => exact Or.inr (by omega)

/-- When no nonce within the budget yields a compliant digest, the loop runs to
the end and returns a fresh hash computed at the first nonce it never tested. -/
theorem mineLoop_allFail (H : String → String) (bn : Nat) (ts ph data : String)
    (d : Nat) :
    ∀ (fuel nonce : Nat),
      (∀ n, n < nonce + fuel →
          strStartsWith (App.calculate_hash H bn ts ph data n d) (zeros d) = false) →
      App.mineLoop H bn ts ph data d nonce fuel
        = (App.calculate_hash H bn ts ph data (nonce + fuel) d, nonce + fuel) := by
  intro fuel
  induction fuel with
  | zero =>
    intro nonce _
    rw [mineLoop_zero, Nat.add_zero]
  | succ fuel ih =>
    intro nonce hfail
    rw [mineLoop_succ]
    have h0 : strStartsWith (App.calculate_hash H bn ts ph data nonce d) (zeros d) = false :=
      hfail nonce (by omega)
    rw [if_neg (by simp [h0])]
    have := ih (nonce + 1) (fun n hn => hfail n (by omega))
    rw [this]
    have harith : nonce + 1 + fuel = nonce + (fuel + 1) := by omega
    rw [harith]

/-- `mine_block` under a hypothesis that rules out every compliant nonce:
the ceiling branch of lines 97-98. -/
theorem mine_block_allFail (H : String → String) (bn : Nat) (ts ph data : String)
    (d : Nat)
    (hfail : ∀ n, n < App.MAX_NONCE →
        strStartsWith (App.calculate_hash H bn ts ph data n d) (zeros d) = false) :
    App.mine_block H bn ts ph data d
      = (App.calculate_hash H bn ts ph data App.MAX_NONCE d, App.MAX_NONCE) := by
  have := mineLoop_allFail H bn ts ph data d App.MAX_NONCE 0
    (fun n hn => hfail n (by omega))
  simpa using this

/-! ## Claims C4, C5, C9, C10 -/

/-- Claim C4: for every input and every difficulty `d ≥ 0`, `mine_block`
returns either a hash whose hex form starts with at least `d` zero characters,
or it returns with the nonce at the full attempt ceiling `MAX_NONCE =
1,000,000`; there is no third outcome. -/
theorem C4_mine_outcomes (H : String → String) (bn : Nat) (ts ph data : String)
    (d : Nat) :
    strStartsWith (App.mine_block H bn ts ph data d).1 (zeros d) = true
      ∨ (App.mine_block H bn ts ph data d).2 = App.MAX_NONCE := by
  have h := (mineLoop_spec H bn ts ph data d App.MAX_NONCE 0).2.2
  simpa using h

/-- Claim C10: the pair returned by `mine_block` is self-consistent — the hash
equals `calculate_hash` of the same fields at the returned nonce, and the
returned nonce is at most the attempt ceiling, so a caller can always re-derive
the hash from the nonce, even in the ceiling-exhausted case. -/
theorem C10_mine_selfconsistent (H : String → String) (bn : Nat)
    (ts ph data : String) (d : Nat) :
    (App.mine_block H bn ts ph data d).1
        = App.calculate_hash H bn ts ph data (App.mine_block H bn ts ph data d).2 d
      ∧ (App.mine_block H bn ts ph data d).2 ≤ App.MAX_NONCE := by
  have h := mineLoop_spec H bn ts ph data d App.MAX_NONCE 0
  exact ⟨h.1, by simpa using h.2.1⟩

/-- Claim C5 (amended): when every nonce below the ceiling fails the difficulty
target, `mine_block` does not fail: it returns the nonce `MAX_NONCE` — one past
the last nonce actually tested in the search loop — together with a hash freshly
computed at that untested nonce (lines 97-98). -/
theorem C5_ceiling (H : String → String) (bn : Nat) (ts ph data : String)
    (d : Nat)
    (hfail : ∀ n, n < App.MAX_NONCE →
        strStartsWith (App.calculate_hash H bn ts ph data n d) (zeros d) = false) :
    App.mine_block H bn ts ph data d
      = (App.calculate_hash H bn ts ph data App.MAX_NONCE d, App.MAX_NONCE) :=
  mine_block_allFail H bn ts ph data d hfail

/-- Every digest of `constHash` misses a positive difficulty target. -/
theorem constHash_fail (s : String) (d : Nat) :
    strStartsWith (constHash s) (zeros (d + 1)) = false :=
  rfl

/-- Witness for C5: under the constant digest `constHash` at difficulty 1 the
search exhausts, and the theorem applies at this concrete input. -/
theorem C5_ceiling_witness :
    App.mine_block constHash 1 "" "" "" 1
      = (App.calculate_hash constHash 1 "" "" "" App.MAX_NONCE 1, App.MAX_NONCE) :=
  C5_ceiling constHash 1 "" "" "" 1 (fun _ _ => constHash_fail _ 0)

/-- Counterexample to claim C5 as stated: in the ceiling-exhausted run under
`constHash`, the nonce the code returns is `1,000,000 = MAX_NONCE`, while the
final attempt actually made during the search used nonce `999,999`; the
returned pair therefore does not come from any attempt of the search. -/
theorem C5_cex :
    (App.mine_block constHash 1 "" "" "" 1).2 = 1000000
      ∧ (1000000 : Nat) ≠ 999999 := by
  constructor
  · rw [mine_block_allFail constHash 1 "" "" "" 1 (fun _ _ => constHash_fail _ 0)]
    rfl
  · omega

/-- Claim C9: the delete operation never deletes — whether or not a user is
logged in, `delete_session` returns the store unchanged, and in the logged-in
case it only emits the warning flash message. -/
theorem C9_delete_noop (store : App.Store) (sid : Nat) :
    App.delete_session true store sid = (store, some App.deleteWarning)
      ∧ App.delete_session false store sid = (store, none) :=
  ⟨rfl, rfl⟩

/-! ## Verifier decomposition lemmas -/

theorem lastOr_nil (prev : Option Block) : lastOr [] prev = prev :=
  rfl

theorem lastOr_cons (x : Block) (xs : List Block) (prev : Option Block) :
    lastOr (x :: xs) prev = lastOr xs (some x) := by
  cases xs with
  | nil => rfl
  | cons y ys =>
    unfold lastOr
    rw [List.getLast?_cons_cons]
    cases hgl : (y :: ys).getLast? with
    | some b => rfl
    | none => simp at hgl

theorem lastOr_concat (xs : List Block) (p : Block) (prev : Option Block) :
    lastOr (xs ++ [p]) prev = some p := by
  unfold lastOr
  rw [List.getLast?_concat]

theorem verifyFrom_append (H : String → String) (xs ys : List Block) :
    ∀ prev, App.verifyFrom H prev (xs ++ ys)
      = if (App.verifyFrom H prev xs).1 = true then
          App.verifyFrom H (lastOr xs prev) ys
        else App.verifyFrom H prev xs := by
  induction xs with
  | nil =>
    intro prev
    simp [App.verifyFrom, lastOr_nil]
  | cons x xs ih =>
    intro prev
    rw [List.cons_append]
    simp only [App.verifyFrom]
    cases hc : App.checkBlock H prev x with
    | some msg => simp
    | none =>
      rw [ih (some x), lastOr_cons]

theorem errorsFrom_append (H : String → String) (xs ys : List Block) :
    ∀ prev, Utils.errorsFrom H prev (xs ++ ys)
      = Utils.errorsFrom H prev xs ++ Utils.errorsFrom H (lastOr xs prev) ys := by
  induction xs with
  | nil =>
    intro prev
    simp [Utils.errorsFrom, lastOr_nil]
  | cons x xs ih =>
    intro prev
    rw [List.cons_append]
    simp only [Utils.errorsFrom]
    rw [ih (some x), lastOr_cons, List.append_assoc]

/-- The two implementations of `calculate_hash` are textually identical. -/
theorem calc_hash_eq : Utils.calculate_hash = App.calculate_hash :=
  rfl

theorem checkBlock_none_iff (H : String → String) (prev : Option Block) (b : Block) :
    App.checkBlock H prev b = none
      ↔ App.calculate_hash H b.block_number b.timestamp b.prev_hash (blockData b)
            b.nonce b.difficulty = b.hash
        ∧ linkBroken prev b = false
        ∧ strStartsWith b.hash (zeros b.difficulty) = true := by
  unfold App.checkBlock
  split_ifs with h1 h2 h3 <;> simp_all

theorem blockErrors_nil_iff (H : String → String) (prev : Option Block) (b : Block) :
    Utils.blockErrors H prev b = []
      ↔ App.calculate_hash H b.block_number b.timestamp b.prev_hash (blockData b)
            b.nonce b.difficulty = b.hash
        ∧ linkBroken prev b = false
        ∧ strStartsWith b.hash (zeros b.difficulty) = true := by
  unfold Utils.blockErrors
  rw [calc_hash_eq]
  split_ifs with h1 h2 h3 <;> simp_all

theorem verifyFrom_true_iff_errors_nil (H : String → String) (l : List Block) :
    ∀ prev, (App.verifyFrom H prev l).1 = true ↔ Utils.errorsFrom H prev l = [] := by
  induction l with
  | nil =>
    intro prev
    simp [App.verifyFrom, Utils.errorsFrom]
  | cons b rest ih =>
    intro prev
    simp only [App.verifyFrom, Utils.errorsFrom]
    cases hc : App.checkBlock H prev b with
    | some msg =>
      have hb : Utils.blockErrors H prev b ≠ [] := by
        intro hnil
        have h1 := (blockErrors_nil_iff H prev b).mp hnil
        have h2 := (checkBlock_none_iff H prev b).mpr h1
        rw [h2] at hc
        cases hc
      simp [hb]
    | none =>
      have hb : Utils.blockErrors H prev b = [] :=
        (blockErrors_nil_iff H prev b).mpr ((checkBlock_none_iff H prev b).mp hc)
      simp [hb, ih (some b)]

/-- Claim C6: the fail-fast verifier and the batch accumulate-all-failures
verifier agree — they return the same validity verdict, and the fail-fast
verdict is `true` exactly when the batch verifier reports an empty error
list. -/
theorem C6_agree (H : String → String) (blocks : List Block) :
    (App.verify_chain H blocks).1 = (Utils.verify_user_chain H blocks).1
      ∧ ((App.verify_chain H blocks).1 = true
          ↔ (Utils.verify_user_chain H blocks).2.2 = []) := by
  cases blocks with
  | nil =>
    exact ⟨rfl, by simp [App.verify_chain, Utils.verify_user_chain]⟩
  | cons b rest =>
    have hiff := verifyFrom_true_iff_errors_nil H (b :: rest) none
    unfold App.verify_chain Utils.verify_user_chain
    by_cases he : Utils.errorsFrom H none (b :: rest) = []
    · simp only [he]
      constructor
      · rw [hiff.mpr he]
        simp
      · simp [hiff.mpr he]
    · have hf : (App.verifyFrom H none (b :: rest)).1 = false := by
        cases hv : (App.verifyFrom H none (b :: rest)).1 with
        | false => rfl
        | true => exact absurd (hiff.mp hv) he
      constructor
      · rw [hf]
        simp [he]
      · simp [hf, he]

/-! ## Claim C1: round trip of a freshly appended block -/

/-- A single self-consistent block passes the verifier exactly when its stored
hash meets its stored difficulty: the hash check passes by hypothesis, the
linkage check is skipped at the head, and only the difficulty check remains. -/
theorem verify_single_block (H : String → String) (b : Block)
    (hhash : App.calculate_hash H b.block_number b.timestamp b.prev_hash
        (blockData b) b.nonce b.difficulty = b.hash) :
    (App.verify_chain H [b]).1 = strStartsWith b.hash (zeros b.difficulty) := by
  unfold App.verify_chain App.verifyFrom App.checkBlock
  rw [if_neg (by simp [hhash])]
  rw [if_neg (by simp [linkBroken])]
  cases hs : strStartsWith b.hash (zeros b.difficulty) with
  | false => rw [if_pos rfl]
  | true =>
    rw [if_neg (by simp [hs])]
    rfl

/-- Claim C1 (amended): for a block freshly appended by the dashboard path,
the verifier on the one-element list containing just that block returns valid
exactly when the mined hash meets the process-wide difficulty target; in the
ceiling-exhausted case with a non-compliant final hash it returns invalid
(the difficulty check fails, while the hash check still passes). -/
theorem C1_round_trip (H : String → String) (chain : List Block) (inp : App.Input) :
    (App.verify_chain H [(App.append H chain inp).getLastD default]).1
      = strStartsWith ((App.append H chain inp).getLastD default).hash
          (zeros App.DIFFICULTY) := by
  unfold App.append
  simp only [List.getLastD_eq_getLast?, List.getLast?_concat, Option.getD_some]
  apply verify_single_block
  have h := (mineLoop_spec H
    (match chain.getLast? with | some p => p.block_number + 1 | none => 1)
    inp.timestamp
    (match chain.getLast? with | some p => p.hash | none => zeros 64)
    (inp.date ++ inp.subject ++ toString inp.duration ++ inp.status)
    App.DIFFICULTY App.MAX_NONCE 0).1
  simpa [blockData, App.mine_block] using h.symm

/-- Counterexample to claim C1 as stated: under the constant digest
`constHash`, mining the first dashboard append exhausts the ceiling and stores
a hash with no leading zeros, and the verifier then rejects the one-element
chain (difficulty check), so a freshly appended block need not verify. -/
theorem C1_cex :
    (App.verify_chain constHash (App.append constHash [] inp0)).1 = false := by
  have hmine : App.mine_block constHash 1 inp0.timestamp (zeros 64)
      (inp0.date ++ inp0.subject ++ toString inp0.duration ++ inp0.status)
      App.DIFFICULTY = ("1", 1000000) := by
    rw [mine_block_allFail constHash 1 inp0.timestamp (zeros 64)
      (inp0.date ++ inp0.subject ++ toString inp0.duration ++ inp0.status)
      App.DIFFICULTY (fun _ _ => constHash_fail _ 2)]
    rfl
  have happ : App.append constHash [] inp0
      = [{ block_number := 1, timestamp := inp0.timestamp, date := inp0.date,
           subject := inp0.subject, duration := inp0.duration,
           status := inp0.status, hash := "1", prev_hash := zeros 64,
           nonce := 1000000, difficulty := App.DIFFICULTY }] := by
    simp only [App.append, List.getLast?]
    rw [hmine]
    rfl
  rw [happ]
  decide

/-! ## Claim C7: sequencing of the append path -/

theorem getD_append_lt (c c2 : List Block) :
    ∀ i, i < c.length → (c ++ c2).getD i default = c.getD i default := by
  induction c with
  | nil =>
    intro i hi
    simp at hi
  | cons x xs ih =>
    intro i hi
    cases i with
    | zero => rfl
    | succ j =>
      simp only [List.cons_append, List.getD_cons_succ]
      exact ih j (by simpa using hi)

theorem getD_concat_len (c : List Block) (b : Block) :
    (c ++ [b]).getD c.length default = b := by
  induction c with
  | nil => rfl
  | cons x xs ih =>
    simp only [List.cons_append, List.length_cons, List.getD_cons_succ]
    exact ih

theorem getLast?_eq_getD (c : List Block) :
    c ≠ [] → c.getLast? = some (c.getD (c.length - 1) default) := by
  induction c with
  | nil => intro h; exact absurd rfl h
  | cons x xs ih =>
    intro _
    cases xs with
    | nil => rfl
    | cons y ys =>
      rw [List.getLast?_cons_cons, ih (by simp)]
      congr 1

theorem appendAll_cons (H : String → String) (c : List Block) (inp : App.Input)
    (rest : List App.Input) :
    App.appendAll H c (inp :: rest) = App.appendAll H (App.append H c inp) rest :=
  rfl

theorem append_chained (H : String → String) (inp : App.Input) (c : List Block)
    (hc : Chained c) :
    Chained (App.append H c inp) ∧ (App.append H c inp).length = c.length + 1 := by
  by_cases hc0 : c = []
  · subst hc0
    have hlen1 : (App.append H [] inp).length = 1 := by simp [App.append]
    refine ⟨⟨?_, ?_⟩, hlen1⟩
    · intro i hi
      rw [hlen1] at hi
      have : i = 0 := by omega
      subst this
      rfl
    · intro i hi
      rw [hlen1] at hi
      have : i = 0 := by omega
      subst this
      rfl
  · have hlast := getLast?_eq_getD c hc0
    have hpos : 0 < c.length := List.length_pos.mpr hc0
    have happ : App.append H c inp
        = c ++ [{ block_number := (c.getD (c.length - 1) default).block_number + 1,
                  timestamp := inp.timestamp, date := inp.date,
                  subject := inp.subject, duration := inp.duration,
                  status := inp.status,
                  hash := (App.mine_block H
                    ((c.getD (c.length - 1) default).block_number + 1) inp.timestamp
                    ((c.getD (c.length - 1) default).hash)
                    (inp.date ++ inp.subject ++ toString inp.duration ++ inp.status)
                    App.DIFFICULTY).1,
                  prev_hash := (c.getD (c.length - 1) default).hash,
                  nonce := (App.mine_block H
                    ((c.getD (c.length - 1) default).block_number + 1) inp.timestamp
                    ((c.getD (c.length - 1) default).hash)
                    (inp.date ++ inp.subject ++ toString inp.duration ++ inp.status)
                    App.DIFFICULTY).2,
                  difficulty := App.DIFFICULTY }] := by
      simp only [App.append, hlast]
    have hbnum : (c.getD (c.length - 1) default).block_number = c.length :=
      (hc.1 (c.length - 1) (by omega)).trans (by omega)
    rw [happ]
    refine ⟨⟨?_, ?_⟩, by simp⟩
    · intro i hi
      simp only [List.length_append, List.length_cons, List.length_nil] at hi
      by_cases hilt : i < c.length
      · rw [getD_append_lt c _ i hilt]
        exact hc.1 i hilt
      · have hieq : i = c.length := by omega
        subst hieq
        rw [getD_concat_len]
        show (c.getD (c.length - 1) default).block_number + 1 = c.length + 1
        rw [hbnum]
    · intro i hi
      simp only [List.length_append, List.length_cons, List.length_nil] at hi
      by_cases hilt : i < c.length
      · rw [getD_append_lt c _ i hilt]
        rw [hc.2 i hilt]
        by_cases hi0 : i = 0
        · simp [hi0]
        · rw [if_neg hi0, if_neg hi0, getD_append_lt c _ (i - 1) (by omega)]
      · have hieq : i = c.length := by omega
        subst hieq
        rw [getD_concat_len]
        rw [if_neg (by omega), getD_append_lt c _ (c.length - 1) (by omega)]

theorem appendAll_chained (H : String → String) (inputs : List App.Input) :
    ∀ c, Chained c →
      Chained (App.appendAll H c inputs)
        ∧ (App.appendAll H c inputs).length = c.length + inputs.length := by
  induction inputs with
  | nil =>
    intro c hc
    exact ⟨hc, by simp [App.appendAll]⟩
  | cons inp rest ih =>
    intro c hc
    rw [appendAll_cons]
    have h1 := append_chained H inp c hc
    have h2 := ih (App.append H c inp) h1.1
    refine ⟨h2.1, ?_⟩
    rw [h2.2, h1.2]
    simp only [List.length_cons]
    omega

/-- Claim C7: sequentially appending `n` blocks for one user starting from an
empty chain yields block numbers `1 .. n` in order, with block 1 pointing at
the 64-character all-zero sentinel and every block `k > 1` pointing at block
`k-1`'s stored hash. -/
theorem C7_sequencing (H : String → String) (inputs : List App.Input) (i : Nat)
    (hi : i < inputs.length) :
    (App.appendAll H [] inputs).length = inputs.length
      ∧ ((App.appendAll H [] inputs).getD i default).block_number = i + 1
      ∧ ((App.appendAll H [] inputs).getD i default).prev_hash
          = (if i = 0 then zeros 64
             else ((App.appendAll H [] inputs).getD (i - 1) default).hash) := by
  have h := appendAll_chained H inputs []
    ⟨fun j hj => by simp at hj, fun j hj => by simp at hj⟩
  have hlen : (App.appendAll H [] inputs).length = inputs.length := by
    simpa using h.2
  exact ⟨hlen, h.1.1 i (by rw [hlen]; exact hi), h.1.2 i (by rw [hlen]; exact hi)⟩

/-- Witness for C7 at a concrete two-input run under the always-compliant
digest `zHash`. -/
theorem C7_sequencing_witness :
    ((App.appendAll zHash [] [inp0, inp1]).getD 1 default).block_number = 2
      ∧ ((App.appendAll zHash [] [inp0, inp1]).getD 1 default).prev_hash
          = ((App.appendAll zHash [] [inp0, inp1]).getD 0 default).hash := by
  have h := C7_sequencing zHash [inp0, inp1] 1 (by simp)
  exact ⟨h.2.1, by simpa using h.2.2⟩

/-! ## Claims C2 and C3: tamper detection -/

theorem verify_chain_ne_nil (H : String → String) (l : List Block) (h : l ≠ []) :
    App.verify_chain H l = App.verifyFrom H none l := by
  cases l with
  | nil => exact absurd rfl h
  | cons b rest => rfl

theorem checkBlock_hash_fail (H : String → String) (prev : Option Block) (b : Block)
    (hbad : App.calculate_hash H b.block_number b.timestamp b.prev_hash (blockData b)
        b.nonce b.difficulty ≠ b.hash) :
    App.checkBlock H prev b
      = some ("Block " ++ toString b.block_number ++ " has invalid hash") := by
  unfold App.checkBlock
  rw [if_pos hbad]

theorem verifyFrom_tail_fails (H : String → String) (l1 : List Block) (b' : Block)
    (l2 : List Block) (prev : Option Block)
    (hok : (App.verifyFrom H prev l1).1 = true)
    (hbad : App.calculate_hash H b'.block_number b'.timestamp b'.prev_hash
        (blockData b') b'.nonce b'.difficulty ≠ b'.hash) :
    App.verifyFrom H prev (l1 ++ b' :: l2)
      = (false, "Block " ++ toString b'.block_number ++ " has invalid hash") := by
  rw [verifyFrom_append H l1 (b' :: l2) prev, if_pos hok]
  simp only [App.verifyFrom]
  rw [checkBlock_hash_fail H _ b' hbad]

theorem valid_split (H : String → String) (l1 : List Block) (b : Block)
    (l2 : List Block) (prev : Option Block)
    (h : (App.verifyFrom H prev (l1 ++ b :: l2)).1 = true) :
    (App.verifyFrom H prev l1).1 = true
      ∧ App.checkBlock H (lastOr l1 prev) b = none := by
  rw [verifyFrom_append] at h
  by_cases hok : (App.verifyFrom H prev l1).1 = true
  · rw [if_pos hok] at h
    refine ⟨hok, ?_⟩
    cases hc : App.checkBlock H (lastOr l1 prev) b with
    | some msg => simp [App.verifyFrom, hc] at h
    | none => rfl
  · rw [if_neg hok] at h
    exact absurd h hok

/-- Mutating exactly one payload field changes the serialized payload: the
delimiter-free concatenation cancels on the unchanged fields, and distinct
durations serialize to distinct decimal strings. -/
theorem blockData_tamper_ne {b b' : Block} (ht : PayloadTamper b b') :
    blockData b' ≠ blockData b := by
  obtain ⟨_, _, _, _, _, _, hcase⟩ := ht
  intro he
  unfold blockData at he
  rcases hcase with ⟨hd, hs, hu, hst⟩ | ⟨hd, hs, hu, hst⟩ | ⟨hd, hs, hu, hst⟩ | ⟨hd, hs, hu, hst⟩
  · rw [hs, hu, hst] at he
    exact hd (str_append_cancel_right (str_append_cancel_right (str_append_cancel_right he)))
  · rw [hd, hu, hst] at he
    exact hs (str_append_cancel_left (str_append_cancel_right (str_append_cancel_right he)))
  · rw [hd, hs, hst] at he
    exact hu (toString_nat_inj
      (str_append_cancel_left (str_append_cancel_right he)))
  · rw [hd, hs, hu] at he
    exact hst (str_append_cancel_left he)

/-- Claim C2: on a chain that verifies as valid, mutating any single payload
field of one committed block (without re-mining) makes the fail-fast verifier
return invalid with the "invalid hash" diagnosis naming that block, while all
earlier blocks still pass their checks.  `H` is injective: distinct serialized
material is assumed not to collide under the digest. -/
theorem C2_tamper (H : String → String) (hH : Function.Injective H)
    (l1 : List Block) (b b' : Block) (l2 : List Block)
    (hvalid : (App.verify_chain H (l1 ++ b :: l2)).1 = true)
    (ht : PayloadTamper b b') :
    App.verify_chain H (l1 ++ b' :: l2)
        = (false, "Block " ++ toString b.block_number ++ " has invalid hash")
      ∧ (App.verify_chain H l1).1 = true := by
  have hv : (App.verifyFrom H none (l1 ++ b :: l2)).1 = true := by
    rw [← verify_chain_ne_nil H _ (by simp)]
    exact hvalid
  obtain ⟨hok, hchk⟩ := valid_split H l1 b l2 none hv
  have hhash : App.calculate_hash H b.block_number b.timestamp b.prev_hash
      (blockData b) b.nonce b.difficulty = b.hash :=
    ((checkBlock_none_iff H _ b).mp hchk).1
  have hdata : blockData b' ≠ blockData b := blockData_tamper_ne ht
  obtain ⟨h1, h2, h3, h4, h5, h6, _⟩ := ht
  have hser : toString b'.block_number ++ b'.timestamp ++ b'.prev_hash
        ++ blockData b' ++ toString b'.nonce ++ toString b'.difficulty
      ≠ toString b.block_number ++ b.timestamp ++ b.prev_hash
        ++ blockData b ++ toString b.nonce ++ toString b.difficulty := by
    rw [h1, h2, h3, h5, h6]
    intro he
    exact hdata (str_append_cancel_left (str_append_cancel_right (str_append_cancel_right he)))
  have hbad : App.calculate_hash H b'.block_number b'.timestamp b'.prev_hash
      (blockData b') b'.nonce b'.difficulty ≠ b'.hash := by
    rw [h4, ← hhash]
    exact fun he => hser (hH he)
  constructor
  · rw [verify_chain_ne_nil H _ (by simp),
      verifyFrom_tail_fails H l1 b' l2 none hok hbad, h1]
  · cases l1 with
    | nil => rfl
    | cons x xs =>
      rw [verify_chain_ne_nil H _ (by simp)]
      exact hok

/-- Witness for C2: a concrete single-block chain, valid under the identity
digest, whose `status` field is mutated. -/
theorem C2_tamper_witness :
    App.verify_chain id (([] : List Block) ++ wBx :: [])
        = (false, "Block " ++ toString wB.block_number ++ " has invalid hash")
      ∧ (App.verify_chain id ([] : List Block)).1 = true :=
  C2_tamper id (fun _ _ h => h) [] wB wBx [] (by decide) (by decide)

theorem verify_user_chain_errors (H : String → String) (l : List Block)
    (h : l ≠ []) (he : Utils.errorsFrom H none l ≠ []) :
    (Utils.verify_user_chain H l).2.2 = Utils.errorsFrom H none l := by
  cases l with
  | nil => exact absurd rfl h
  | cons b rest =>
    simp only [Utils.verify_user_chain]
    rw [if_pos he]

/-- Claim C3 (amended): replacing block k's `prev_hash` with an unrelated
value, keeping the stored hash, makes the fail-fast verifier flag block k with
the "invalid hash" diagnosis — the hash check covers `prev_hash` and runs
before the linkage check — while the batch verifier's error list for the same
chain does contain the "Broken chain link" diagnosis for block k; block k-1
and all earlier blocks still verify.  `H` is injective: distinct serialized
material is assumed not to collide under the digest. -/
theorem C3_link (H : String → String) (hH : Function.Injective H)
    (l1 : List Block) (p b : Block) (l2 : List Block) (v : String)
    (hvalid : (App.verify_chain H (l1 ++ p :: b :: l2)).1 = true)
    (hv : v ≠ b.prev_hash) :
    App.verify_chain H (l1 ++ p :: { b with prev_hash := v } :: l2)
        = (false, "Block " ++ toString b.block_number ++ " has invalid hash")
      ∧ ("Block " ++ toString b.block_number ++ ": Broken chain link")
          ∈ (Utils.verify_user_chain H (l1 ++ p :: { b with prev_hash := v } :: l2)).2.2
      ∧ (App.verify_chain H (l1 ++ [p])).1 = true := by
  have hsplit : ∀ (x : Block), l1 ++ p :: x :: l2 = (l1 ++ [p]) ++ x :: l2 := by
    intro x
    simp
  have hv2 : (App.verifyFrom H none ((l1 ++ [p]) ++ b :: l2)).1 = true := by
    rw [← hsplit b, ← verify_chain_ne_nil H _ (by simp)]
    exact hvalid
  obtain ⟨hok, hchk⟩ := valid_split H (l1 ++ [p]) b l2 none hv2
  rw [lastOr_concat] at hchk
  obtain ⟨hhash, hlink, _⟩ := (checkBlock_none_iff H _ b).mp hchk
  have hprev : b.prev_hash = p.hash := by
    simpa [linkBroken] using hlink
  have hvp : v ≠ p.hash := hprev ▸ hv
  have hser : toString b.block_number ++ b.timestamp ++ v
        ++ blockData b ++ toString b.nonce ++ toString b.difficulty
      ≠ toString b.block_number ++ b.timestamp ++ b.prev_hash
        ++ blockData b ++ toString b.nonce ++ toString b.difficulty := by
    intro he
    exact hv (str_append_cancel_left (str_append_cancel_right
      (str_append_cancel_right (str_append_cancel_right he))))
  have hbad : App.calculate_hash H ({ b with prev_hash := v } : Block).block_number
      ({ b with prev_hash := v } : Block).timestamp
      ({ b with prev_hash := v } : Block).prev_hash
      (blockData { b with prev_hash := v })
      ({ b with prev_hash := v } : Block).nonce
      ({ b with prev_hash := v } : Block).difficulty
      ≠ ({ b with prev_hash := v } : Block).hash := by
    show H _ ≠ b.hash
    rw [← hhash]
    exact fun he => hser (hH he)
  have hlb : linkBroken (some p) ({ b with prev_hash := v }) = true := by
    simp [linkBroken, hvp]
  have hmem : ("Block " ++ toString b.block_number ++ ": Broken chain link")
      ∈ Utils.blockErrors H (some p) { b with prev_hash := v } := by
    unfold Utils.blockErrors
    rw [hlb]
    simp
  refine ⟨?_, ?_, ?_⟩
  · rw [hsplit, verify_chain_ne_nil H _ (by simp),
      verifyFrom_tail_fails H (l1 ++ [p]) _ l2 none hok hbad]
  · have herr : Utils.errorsFrom H none ((l1 ++ [p]) ++ { b with prev_hash := v } :: l2)
        = Utils.errorsFrom H none (l1 ++ [p])
          ++ (Utils.blockErrors H (some p) { b with prev_hash := v }
            ++ Utils.errorsFrom H (some { b with prev_hash := v }) l2) := by
      rw [errorsFrom_append H (l1 ++ [p]) _ none, lastOr_concat]
      rfl
    rw [hsplit, verify_user_chain_errors H _ (by simp) ?_]
    · rw [herr]
      exact List.mem_append_right _ (List.mem_append_left _ hmem)
    · rw [herr]
      intro hnil
      rw [List.append_eq_nil] at hnil
      have := hnil.2
      rw [List.append_eq_nil] at this
      exact (List.ne_nil_of_mem hmem) this.1
  · rw [verify_chain_ne_nil H _ (by simp)]
    exact hok

/-- Witness for C3: a concrete valid two-block chain under the identity
digest, with block 2's `prev_hash` replaced by `"z"`. -/
theorem C3_link_witness :
    App.verify_chain id (([] : List Block) ++ cA :: { cB with prev_hash := "z" } :: [])
        = (false, "Block " ++ toString cB.block_number ++ " has invalid hash")
      ∧ ("Block " ++ toString cB.block_number ++ ": Broken chain link")
          ∈ (Utils.verify_user_chain id
              (([] : List Block) ++ cA :: { cB with prev_hash := "z" } :: [])).2.2
      ∧ (App.verify_chain id (([] : List Block) ++ [cA])).1 = true :=
  C3_link id (fun _ _ h => h) [] cA cB [] "z" (by decide) (by decide)

/-- Counterexample to claim C3 as stated: on a concrete valid two-block chain,
replacing block 2's `prev_hash` with the unrelated value `"z"` makes the
fail-fast verifier report "Block 2 has invalid hash" — not the "broken chain
link" diagnosis the claim predicts — because `prev_hash` is part of the hashed
material and the hash check runs first. -/
theorem C3_cex :
    App.verify_chain id [cA, { cB with prev_hash := "z" }]
        = (false, "Block 2 has invalid hash")
      ∧ (App.verify_chain id [cA, { cB with prev_hash := "z" }]).2
          ≠ "Block 2 has broken chain link"
      ∧ (App.verify_chain id [cA]).1 = true := by
  refine ⟨by decide, by decide, by decide⟩

